import Mathlib

/-!
Verification model of `rtff` (`src/src/rtff/abstract_filter.h`).

The repository ships only the public header of `AbstractFilter`; the
implementation file is not part of `src/`.  Following the header's
declarations, the pipeline behaviour (Init validation, `ProcessBlock`
orchestration, latency accounting) is therefore modelled from the
specification (`spec.md` §3, §4, §7).  Audio samples are modelled as exact
rationals (the C++ uses `float`; rationals are the exact idealization, and
the spec's round-trip properties are stated "within floating-point
tolerance", i.e. exactly in the idealized model).  The opaque transform
engine composed with the spectral callback is modelled as a function
`F : List ℚ → List ℚ` on time-domain windows (a perfect forward/inverse
pair with an identity callback makes `F` the identity), and the synthesis
overlap-add weighting is a window `w : List ℚ` of length `fft_size`.
-/

namespace Rtff

/-- Error taxonomy of the core, from spec §7: `InvalidArgument`,
`AlreadyInitialized`, `Underflow`, `ShapeMismatch`. -/
inductive FilterError
  | InvalidArgument
  | AlreadyInitialized
  | Underflow
  | ShapeMismatch
  deriving DecidableEq

/-- Configuration owned by the filter after initialization, from the
header's private fields (`fft_size_`, `overlap_`, `block_size_`,
`channel_count_`). -/
structure Config where
  channel_count : Nat
  fft_size : Nat
  overlap : Nat
  block_size : Nat
  deriving DecidableEq

/-- Hop size, spec §3: `hop_size = fft_size - overlap` (derived). -/
def Config.hop_size (c : Config) : Nat := c.fft_size - c.overlap

/-- Window size, header: "this value will be the same as the fft size". -/
def Config.window_size (c : Config) : Nat := c.fft_size

/-- Validity of a configuration, spec §4.1: `channel_count ≥ 1`,
`fft_size ≥ 1`, `0 ≤ overlap < fft_size`, `block_size ≥ 1`. -/
def Config.valid (c : Config) : Prop :=
  1 ≤ c.channel_count ∧ 1 ≤ c.fft_size ∧ c.overlap < c.fft_size ∧ 1 ≤ c.block_size

instance (c : Config) : Decidable c.valid := by
  unfold Config.valid; infer_instance

/-- Number of zero samples the output ring buffer is primed with at `Init`
(spec §3: the output buffer "must always be primed with latency-worth of
samples before steady-state reads are permitted").  `hop_size - gcd
(block_size, hop_size)` is the least priming that makes every pop of
`block_size` finalized samples succeed; it is `0` whenever `hop_size`
divides `block_size`. -/
def primingOut (c : Config) : Nat :=
  c.hop_size - Nat.gcd c.block_size c.hop_size

/-- Frame latency, modelled from the spec: §3 "derived scalar ... a
function of `fft_size`, `hop_size`, and `block_size`"; §8 scenario value
`fft_size - hop_size` when `hop_size` divides `block_size`.  Input
priming contributes `overlap = fft_size - hop_size` frames and output
priming contributes `primingOut` frames. -/
def Config.frameLatency (c : Config) : Nat := c.overlap + primingOut c

/-- Pointwise sum of two sample lists, the shorter one implicitly
zero-padded: this is the overlap-add accumulation primitive of the output
ring buffer (spec §4.3 `Accumulate`). -/
def addInto : List ℚ → List ℚ → List ℚ
  | a, [] => a
  | [], b => b
  | x :: a, y :: b => (x + y) :: addInto a b

/-- Synthesis of one window: the composite transform/callback `F` applied
to the analysis window, weighted by the synthesis window `w`
(spec §4.1 step 3 and §4.3). -/
def synth (F : List ℚ → List ℚ) (w : List ℚ) (win : List ℚ) : List ℚ :=
  List.zipWith (· * ·) w (F win)

/-- Per-channel processing state: `input` is the unconsumed part of the
input ring buffer (front at the window-extraction cursor), `out` is the
not-yet-popped part of the output ring buffer (front at the pop frontier),
and `fin` is the number of front samples of `out` that are finalized
(all overlapping synthesis windows summed, spec §3). -/
structure ChanState where
  input : List ℚ
  out : List ℚ
  fin : Nat
  deriving DecidableEq

/-- Channel state right after `Init`, modelled from the spec: the input
ring buffer is seeded with `overlap` zero samples (spec §3: "enough
retained samples (`overlap`) exist to seed the next window"), the output
ring buffer is primed with `primingOut` finalized zeros. -/
def initChan (c : Config) : ChanState :=
  { input := List.replicate c.overlap 0
    out := List.replicate (primingOut c) 0
    fin := primingOut c }

/-- One iteration of spec §4.1 step 3: extract a window of `fft_size`
samples, advance the consumption cursor by `hop_size`, synthesize, and
overlap-add the synthesized window into the output ring buffer at the
position implied by hop alignment (its start is exactly at the finalized
frontier); the first `hop_size` samples of the window's span become
finalized. -/
def stepWindow (c : Config) (F : List ℚ → List ℚ) (w : List ℚ)
    (s : ChanState) : ChanState :=
  { input := s.input.drop c.hop_size
    out := addInto s.out
      (List.replicate s.fin 0 ++ synth F w (s.input.take c.fft_size))
    fin := s.fin + c.hop_size }

/-- Fueled form of spec §4.1 step 3's loop: "while the input ring buffer
has ≥ `fft_size` unconsumed samples ... extract one window".  The fuel
only bounds the iteration count; at every use the fuel is at least the
input length, which (for `hop_size ≥ 1`) dominates the number of windows
that can fire. -/
def drain (c : Config) (F : List ℚ → List ℚ) (w : List ℚ) :
    Nat → ChanState → ChanState
  | 0, s => s
  | fuel + 1, s =>
    if c.fft_size ≤ s.input.length then
      drain c F w fuel (stepWindow c F w s)
    else s

/-- Spec §4.1 steps 2–3 for one channel: push the incoming samples, then
extract and process every ready window. -/
def chanFeed (c : Config) (F : List ℚ → List ℚ) (w : List ℚ)
    (s : ChanState) (xs : List ℚ) : ChanState :=
  drain c F w (s.input.length + xs.length) { s with input := s.input ++ xs }

/-- Spec §4.1 step 4 for one channel: pop `block_size` samples from the
output ring buffer's read frontier. -/
def chanPop (c : Config) (s : ChanState) : ChanState × List ℚ :=
  ({ s with out := s.out.drop c.block_size, fin := s.fin - c.block_size },
   s.out.take c.block_size)

/-- Whole-instance state of an `AbstractFilter`. -/
structure FilterState where
  initialized : Bool
  cfg : Config
  chans : List ChanState
  deriving DecidableEq

/-- State produced by the `AbstractFilter` constructor: not initialized,
no configuration, no buffers. -/
def freshFilter : FilterState :=
  { initialized := false, cfg := ⟨0, 0, 0, 0⟩, chans := [] }

/-- Modelled from the spec: §4.1 `Init(channel_count, fft_size, overlap,
block_size)` (the header declares `Init` but its implementation is not in
`src/`).  It fails with `AlreadyInitialized` on a live instance, with
`InvalidArgument` when validation fails, and otherwise stores the
configuration and allocates the primed per-channel ring buffers; the
failed calls leave the state unchanged.  The error is reported together
with the state (the header surfaces it through the `std::error_code& err`
out-parameter). -/
def Init (st : FilterState) (cc fft ov bs : Nat) :
    FilterState × Option FilterError :=
  if st.initialized then (st, some .AlreadyInitialized)
  else
    let cfg : Config := ⟨cc, fft, ov, bs⟩
    if cfg.valid then
      ({ initialized := true, cfg := cfg
         chans := List.replicate cc (initChan cfg) }, none)
    else (st, some .InvalidArgument)

/-- Call boundary of the header's `Init`: `channel_count` is declared
`uint8_t` and `fft_size`/`overlap` are `uint32_t` (header line 33), and
`block_size` arrives through `set_block_size(uint32_t)`; a caller-supplied
argument is reduced modulo the width of the parameter type by the C++
implicit conversion before `Init` runs. -/
def InitCall (st : FilterState) (cc fft ov bs : Nat) :
    FilterState × Option FilterError :=
  Init st (cc % 2 ^ 8) (fft % 2 ^ 32) (ov % 2 ^ 32) (bs % 2 ^ 32)

/-- Header accessor `fft_size()`. -/
def FilterState.fft_size (st : FilterState) : Nat := st.cfg.fft_size

/-- Header accessor `overlap()`. -/
def FilterState.overlap (st : FilterState) : Nat := st.cfg.overlap

/-- Header accessor `hop_size()`. -/
def FilterState.hop_size (st : FilterState) : Nat := st.cfg.hop_size

/-- Header accessor `window_size()`. -/
def FilterState.window_size (st : FilterState) : Nat := st.cfg.window_size

/-- Header accessor `block_size()`. -/
def FilterState.block_size (st : FilterState) : Nat := st.cfg.block_size

/-- Header accessor `channel_count()` (return type `uint8_t`). -/
def FilterState.channel_count (st : FilterState) : Nat := st.cfg.channel_count

/-- Header `FrameLatency()`: modelled from the spec as the analytic
function `Config.frameLatency` of the stored configuration. -/
def FilterState.FrameLatency (st : FilterState) : Nat := st.cfg.frameLatency

/-- Shape validation of spec §4.1 step 1: the buffer must have
`channel_count` channels of `block_size` frames each. -/
def blockShapeOk (c : Config) (buffer : List (List ℚ)) : Prop :=
  buffer.length = c.channel_count ∧ ∀ ch ∈ buffer, ch.length = c.block_size

instance (c : Config) (buffer : List (List ℚ)) : Decidable (blockShapeOk c buffer) := by
  unfold blockShapeOk; infer_instance

/-- Modelled from the spec: §4.1 `ProcessBlock` (the header declares it;
the implementation is not in `src/`).  On a shape mismatch it signals
`ShapeMismatch` and mutates nothing; otherwise it pushes the block,
processes every ready window, and pops exactly `block_size` finalized
samples per channel into the caller's buffer (in place: the returned
sample lists replace the buffer's contents).  Popping more finalized
samples than exist would signal `Underflow` (spec §4.3). -/
def ProcessBlock (F : List ℚ → List ℚ) (w : List ℚ) (st : FilterState)
    (buffer : List (List ℚ)) :
    FilterState × List (List ℚ) × Option FilterError :=
  if blockShapeOk st.cfg buffer then
    let fed := List.zipWith (chanFeed st.cfg F w) st.chans buffer
    if fed.all fun s => st.cfg.block_size ≤ s.fin then
      ({ st with chans := fed.map fun s => (chanPop st.cfg s).1 },
       fed.map fun s => (chanPop st.cfg s).2, none)
    else (st, buffer, some .Underflow)
  else (st, buffer, some .ShapeMismatch)

/-- Header `set_block_size(uint32_t value)`. -/
def set_block_size (st : FilterState) (value : Nat) : FilterState :=
  { st with cfg := { st.cfg with block_size := value % 2 ^ 32 } }

/-- A sequence of `ProcessBlock` calls, collecting the per-call output
buffers. -/
def runCalls (F : List ℚ → List ℚ) (w : List ℚ) (st : FilterState) :
    List (List (List ℚ)) → FilterState × List (List (List ℚ))
  | [] => (st, [])
  | b :: bs =>
    let r := ProcessBlock F w st b
    let rest := runCalls F w r.1 bs
    (rest.1, r.2.1 :: rest.2)

/-- The input stream of one channel as seen by the window extractor: the
`overlap` priming zeros followed by all samples pushed so far. -/
def primedS (c : Config) (X : List ℚ) : List ℚ :=
  List.replicate c.overlap 0 ++ X

/-- The output ring buffer's accumulated contents (from its absolute
origin) after the first `k` windows have been synthesized and
overlap-added: `primingOut` priming zeros, plus window `j` added at
offset `primingOut + j * hop_size` for every `j < k`. -/
def accum (c : Config) (F : List ℚ → List ℚ) (w : List ℚ) (X : List ℚ) :
    Nat → List ℚ
  | 0 => List.replicate (primingOut c) 0
  | k + 1 =>
    addInto (accum c F w X k)
      (List.replicate (primingOut c + k * c.hop_size) 0 ++
        synth F w (((primedS c X).drop (k * c.hop_size)).take c.fft_size))

/-- Closed form of the per-channel state after the samples `X` have been
pushed and `X.length` samples have been popped (each `ProcessBlock` pushes
and pops `block_size`): `X.length / hop_size` windows have fired. -/
def chanAfter (c : Config) (F : List ℚ → List ℚ) (w : List ℚ)
    (X : List ℚ) : ChanState :=
  { input := (primedS c X).drop (X.length / c.hop_size * c.hop_size)
    out := (accum c F w X (X.length / c.hop_size)).drop X.length
    fin := primingOut c + X.length / c.hop_size * c.hop_size - X.length }

/-- Closed form of the per-channel state in the middle of a call: the
samples `X` have been pushed, `m` samples have been popped, and the first
`k` windows have fired. -/
def midState (c : Config) (F : List ℚ → List ℚ) (w : List ℚ)
    (X : List ℚ) (m k : Nat) : ChanState :=
  { input := (primedS c X).drop (k * c.hop_size)
    out := (accum c F w X k).drop m
    fin := primingOut c + k * c.hop_size - m }

/-- Channel `ch` of a multichannel buffer. -/
def chanOf (ch : Nat) (b : List (List ℚ)) : List ℚ := b.getD ch []

/-- All samples fed to channel `ch` by a sequence of `ProcessBlock`
calls, in order. -/
def histChan (ch : Nat) (Bs : List (List (List ℚ))) : List ℚ :=
  (Bs.map (chanOf ch)).flatten

/-- A buffer carrying, on every channel, a unit impulse in its first
frame and zeros elsewhere. -/
def impulseBuffer (c : Config) : List (List ℚ) :=
  List.replicate c.channel_count (1 :: List.replicate (c.block_size - 1) 0)

/-- An all-zero buffer. -/
def zeroBuffer (c : Config) : List (List ℚ) :=
  List.replicate c.channel_count (List.replicate c.block_size 0)

/-- The input of the impulse-response experiment of spec §8: a unit
impulse fed at time `0`, followed by `n` blocks of silence. -/
def impulseBlocks (c : Config) (n : Nat) : List (List (List ℚ)) :=
  impulseBuffer c :: List.replicate n (zeroBuffer c)

/-- How a call reports failure to its caller: as a value returned from
the call, or by mutating a caller-supplied error slot passed by
reference. -/
inductive ErrorSurfacing
  | returnedResult
  | mutableOutParameter
  deriving DecidableEq

/-- From the source header (line 33): `void Init(uint8_t channel_count,
uint32_t fft_size, uint32_t overlap, std::error_code& err)` returns
`void` and reports configuration errors by mutating the caller's
`std::error_code` out-parameter. -/
def initErrorSurfacing : ErrorSurfacing := .mutableOutParameter

/-- Contribution of window `k` (with identity processing) to the
reconstructed sample at position `r` of the synthesis stream: the
synthesis weight at the in-window offset, when window `k` covers `r`. -/
def contrib (c : Config) (w : List ℚ) (r k : Nat) : ℚ :=
  if k * c.hop_size ≤ r ∧ r < k * c.hop_size + c.fft_size then
    w.getD (r - k * c.hop_size) 0
  else 0

/-- Total synthesis weight covering position `r` of the reconstruction
stream (every window that overlaps `r` contributes once): the quantity
that the constant-overlap-add property requires to equal `1` from the
first fully covered position on. -/
def coverSum (c : Config) (w : List ℚ) (r : Nat) : ℚ :=
  ∑ k ∈ Finset.range (r / c.hop_size + 1), contrib c w r k

/-- Constant-overlap-add property of a synthesis window for the
configured hop (spec §8): over one hop period past the partially covered
prefix, the covering weights sum to `1`. -/
def cola (c : Config) (w : List ℚ) : Prop :=
  ∀ j < c.hop_size, coverSum c w (c.overlap + j) = 1

instance (c : Config) (w : List ℚ) : Decidable (cola c w) := by
  unfold cola; infer_instance

/-! Basic arithmetic facts about a valid configuration. -/

theorem hop_pos (c : Config) (h : c.overlap < c.fft_size) : 0 < c.hop_size :=
  Nat.sub_pos_of_lt h

theorem hop_le_fft (c : Config) : c.hop_size ≤ c.fft_size :=
  Nat.sub_le _ _

theorem overlap_add_hop (c : Config) (h : c.overlap < c.fft_size) :
    c.overlap + c.hop_size = c.fft_size :=
  Nat.add_sub_cancel' (Nat.le_of_lt h)

/-- The output priming absorbs the worst-case misalignment between the pop
frontier (a multiple of `block_size`) and the finalized frontier (a
multiple of `hop_size`). -/
theorem mul_block_mod_hop_le_primingOut (c : Config)
    (hhop : 0 < c.hop_size) (n : Nat) :
    n * c.block_size % c.hop_size ≤ primingOut c := by
  set g := Nat.gcd c.block_size c.hop_size with hg
  have hgh : g ∣ c.hop_size := Nat.gcd_dvd_right _ _
  have hgb : g ∣ n * c.block_size := Dvd.dvd.mul_left (Nat.gcd_dvd_left _ _) n
  have hgr : g ∣ n * c.block_size % c.hop_size := (Nat.dvd_mod_iff hgh).2 hgb
  have hrlt : n * c.block_size % c.hop_size < c.hop_size := Nat.mod_lt _ hhop
  rcases Nat.eq_zero_or_pos (n * c.block_size % c.hop_size) with h0 | hpos
  · simp [h0]
  · have hdvd : g ∣ c.hop_size - n * c.block_size % c.hop_size :=
      Nat.dvd_sub' hgh hgr
    have hle : g ≤ c.hop_size - n * c.block_size % c.hop_size :=
      Nat.le_of_dvd (by omega) hdvd
    unfold primingOut
    omega

/-! Pointwise toolkit for the overlap-add primitive. -/

theorem addInto_nil_right (a : List ℚ) : addInto a [] = a := by
  cases a <;> rfl

theorem addInto_nil_left (b : List ℚ) : addInto [] b = b := by
  cases b <;> rfl

theorem addInto_length (a b : List ℚ) :
    (addInto a b).length = max a.length b.length := by
  induction a generalizing b with
  | nil => cases b <;> simp [addInto]
  | cons x a ih =>
    cases b with
    | nil => simp [addInto]
    | cons y b => simp [addInto, ih]; omega

theorem getD_addInto (a b : List ℚ) (i : Nat) :
    (addInto a b).getD i 0 = a.getD i 0 + b.getD i 0 := by
  induction a generalizing b i with
  | nil => cases b <;> simp [addInto]
  | cons x a ih =>
    cases b with
    | nil => simp [addInto]
    | cons y b =>
      cases i with
      | zero => simp [addInto]
      | succ i => simpa [addInto] using ih b i

theorem drop_addInto (n : Nat) (a b : List ℚ) :
    (addInto a b).drop n = addInto (a.drop n) (b.drop n) := by
  induction n generalizing a b with
  | zero => rfl
  | succ n ih =>
    cases a with
    | nil => cases b <;> simp [addInto, addInto_nil_left]
    | cons x a =>
      cases b with
      | nil => simp [addInto, addInto_nil_right]
      | cons y b => simpa [addInto] using ih a b

theorem getD_pad (off : Nat) (y : List ℚ) (i : Nat) :
    (List.replicate off (0 : ℚ) ++ y).getD i 0 =
      if i < off then 0 else y.getD (i - off) 0 := by
  rcases Nat.lt_or_ge i off with h | h
  · rw [if_pos h, List.getD_append _ _ _ _ (by simpa using h)]
    simp [List.getD_eq_getElem?_getD, List.getElem?_replicate, h]
  · rw [if_neg (Nat.not_lt_of_ge h),
      List.getD_append_right _ _ _ _ (by simpa using h)]
    simp

theorem drop_pad (n off : Nat) (h : n ≤ off) (y : List ℚ) :
    (List.replicate off (0 : ℚ) ++ y).drop n =
      List.replicate (off - n) (0 : ℚ) ++ y := by
  rw [List.drop_append_eq_append_drop, List.drop_replicate]
  have h0 : n - (List.replicate off (0 : ℚ)).length = 0 := by
    simp [Nat.sub_eq_zero_of_le h]
  rw [h0, List.drop_zero]

theorem take_addInto_pad (A : List ℚ) (off t : Nat) (y : List ℚ)
    (h1 : t ≤ off) (h2 : t ≤ A.length) :
    (addInto A (List.replicate off (0 : ℚ) ++ y)).take t = A.take t := by
  apply List.ext_getElem
  · simp [addInto_length]; omega
  · intro n h₁ h₂
    have hn : n < t := by simp at h₁; exact h₁.1
    rw [List.getElem_take, List.getElem_take]
    rw [← List.getD_eq_getElem _ 0, ← List.getD_eq_getElem _ 0,
      getD_addInto, getD_pad, if_pos (lt_of_lt_of_le hn h1), add_zero]

theorem getD_zipWith_mul (a b : List ℚ) (j : Nat) :
    (List.zipWith (· * ·) a b).getD j 0 = a.getD j 0 * b.getD j 0 := by
  induction a generalizing b j with
  | nil => simp
  | cons x a ih =>
    cases b with
    | nil => simp
    | cons y b =>
      cases j with
      | zero => simp
      | succ j => simpa using ih b j

theorem getD_take (l : List ℚ) (t j : Nat) :
    (l.take t).getD j 0 = if j < t then l.getD j 0 else 0 := by
  rw [List.getD_eq_getElem?_getD, List.getElem?_take]
  rcases Nat.lt_or_ge j t with h | h
  · rw [if_pos h, if_pos h, List.getD_eq_getElem?_getD]
  · rw [if_neg (Nat.not_lt_of_ge h), if_neg (Nat.not_lt_of_ge h)]
    rfl

theorem getD_drop (l : List ℚ) (n j : Nat) :
    (l.drop n).getD j 0 = l.getD (n + j) 0 := by
  rw [List.getD_eq_getElem?_getD, List.getElem?_drop,
    ← List.getD_eq_getElem?_getD]

theorem take_drop_append (a ext : List ℚ) (n t : Nat) (h : n + t ≤ a.length) :
    ((a ++ ext).drop n).take t = (a.drop n).take t := by
  rw [List.drop_append_eq_append_drop,
    Nat.sub_eq_zero_of_le (by omega : n ≤ a.length), List.drop_zero,
    List.take_append_eq_append_take,
    Nat.sub_eq_zero_of_le (by simp [List.length_drop]; omega), List.take_zero,
    List.append_nil]

/-! Shape facts about the closed-form output accumulator. -/

theorem primedS_length (c : Config) (X : List ℚ) :
    (primedS c X).length = c.overlap + X.length := by
  simp [primedS]

theorem window_length (c : Config) (X : List ℚ) (k : Nat)
    (hov : c.overlap < c.fft_size) (hk : k * c.hop_size + c.hop_size ≤ X.length) :
    (((primedS c X).drop (k * c.hop_size)).take c.fft_size).length =
      c.fft_size := by
  have hfft : c.overlap + c.hop_size = c.fft_size := overlap_add_hop c hov
  simp [primedS]
  omega

theorem synth_length (F : List ℚ → List ℚ) (w win : List ℚ)
    (HF : (F win).length = win.length) :
    (synth F w win).length = min w.length win.length := by
  simp [synth, HF]

theorem accum_length_ge (c : Config) (F : List ℚ → List ℚ) (w : List ℚ)
    (X : List ℚ) (hov : c.overlap < c.fft_size) (hw : w.length = c.fft_size)
    (HF : ∀ l, (F l).length = l.length) (K : Nat)
    (hK : K * c.hop_size ≤ X.length) :
    primingOut c + K * c.hop_size ≤ (accum c F w X K).length := by
  induction K with
  | zero => simp [accum]
  | succ K ih =>
    have hK1 : K * c.hop_size + c.hop_size ≤ X.length := by
      rw [add_one_mul] at hK; exact hK
    have hwin :
        (((primedS c X).drop (K * c.hop_size)).take c.fft_size).length =
          c.fft_size := window_length c X K hov hK1
    have hsyn :
        (synth F w (((primedS c X).drop (K * c.hop_size)).take c.fft_size)).length =
          c.fft_size := by
      rw [synth_length F w _ (HF _), hwin, hw]; simp
    have hfft : c.hop_size ≤ c.fft_size := hop_le_fft c
    rw [show K + 1 = K + 1 from rfl]
    unfold accum
    rw [addInto_length]
    simp only [List.length_append, List.length_replicate, hsyn]
    rw [add_one_mul]
    omega

theorem accum_congr_append (c : Config) (F : List ℚ → List ℚ) (w : List ℚ)
    (X ext : List ℚ) (hov : c.overlap < c.fft_size) (K : Nat)
    (hK : K * c.hop_size ≤ X.length) :
    accum c F w (X ++ ext) K = accum c F w X K := by
  induction K with
  | zero => rfl
  | succ K ih =>
    have hK1 : K * c.hop_size + c.hop_size ≤ X.length := by
      rw [add_one_mul] at hK; exact hK
    have hfft : c.overlap + c.hop_size = c.fft_size := overlap_add_hop c hov
    have hslice :
        ((primedS c (X ++ ext)).drop (K * c.hop_size)).take c.fft_size =
          ((primedS c X).drop (K * c.hop_size)).take c.fft_size := by
      have : primedS c (X ++ ext) = primedS c X ++ ext := by
        simp [primedS]
      rw [this, take_drop_append]
      rw [primedS_length]
      omega
    unfold accum
    rw [ih (le_trans (Nat.mul_le_mul_right _ (Nat.le_succ K)) hK), hslice]

theorem take_accum_add (c : Config) (F : List ℚ → List ℚ) (w : List ℚ)
    (X : List ℚ) (hov : c.overlap < c.fft_size) (hw : w.length = c.fft_size)
    (HF : ∀ l, (F l).length = l.length) (K d t : Nat)
    (ht : t ≤ primingOut c + K * c.hop_size)
    (hK : (K + d) * c.hop_size ≤ X.length) :
    (accum c F w X (K + d)).take t = (accum c F w X K).take t := by
  induction d with
  | zero => rfl
  | succ d ih =>
    have hKd : (K + d) * c.hop_size ≤ X.length :=
      le_trans (Nat.mul_le_mul_right _ (by omega)) hK
    have hlen : t ≤ (accum c F w X (K + d)).length :=
      le_trans (le_trans ht (by
        have := Nat.mul_le_mul_right c.hop_size (le_trans (Nat.le_add_right K d) (le_refl _))
        omega))
        (accum_length_ge c F w X hov hw HF (K + d) hKd)
    rw [show K + (d + 1) = (K + d) + 1 from rfl]
    have hacc : accum c F w X ((K + d) + 1) =
        addInto (accum c F w X (K + d))
          (List.replicate (primingOut c + (K + d) * c.hop_size) 0 ++
            synth F w
              (((primedS c X).drop ((K + d) * c.hop_size)).take c.fft_size)) :=
      rfl
    rw [hacc, take_addInto_pad _ _ _ _
      (le_trans ht (by
        have := Nat.mul_le_mul_right c.hop_size (Nat.le_add_right K d)
        omega)) hlen]
    exact ih hKd

/-- Stability of the finalized region: extending the input and firing
more windows does not change the samples below the old finalized
frontier. -/
theorem take_accum_stable (c : Config) (F : List ℚ → List ℚ) (w : List ℚ)
    (X ext : List ℚ) (hov : c.overlap < c.fft_size)
    (hw : w.length = c.fft_size) (HF : ∀ l, (F l).length = l.length)
    (K K' t : Nat) (hKK : K ≤ K')
    (ht : t ≤ primingOut c + K * c.hop_size)
    (hK : K * c.hop_size ≤ X.length)
    (hK' : K' * c.hop_size ≤ X.length + ext.length) :
    (accum c F w (X ++ ext) K').take t = (accum c F w X K).take t := by
  obtain ⟨d, rfl⟩ := Nat.exists_eq_add_of_le hKK
  rw [take_accum_add c F w (X ++ ext) hov hw HF K d t ht
    (by simpa using hK'), accum_congr_append c F w X ext hov K hK]

/-! Single-channel closed form of spec §4.1 steps 2–4. -/

theorem drain_succ (c : Config) (F : List ℚ → List ℚ) (w : List ℚ)
    (fuel : Nat) (s : ChanState) :
    drain c F w (fuel + 1) s =
      if c.fft_size ≤ s.input.length then
        drain c F w fuel (stepWindow c F w s)
      else s :=
  rfl

theorem stepWindow_mid (c : Config) (F : List ℚ → List ℚ) (w : List ℚ)
    (X : List ℚ) (m k : Nat)
    (hm : m ≤ primingOut c + k * c.hop_size) :
    stepWindow c F w (midState c F w X m k) = midState c F w X m (k + 1) := by
  have hacc : accum c F w X (k + 1) =
      addInto (accum c F w X k)
        (List.replicate (primingOut c + k * c.hop_size) 0 ++
          synth F w (((primedS c X).drop (k * c.hop_size)).take c.fft_size)) :=
    rfl
  simp only [stepWindow, midState, ChanState.mk.injEq]
  refine ⟨?_, ?_, ?_⟩
  · rw [List.drop_drop, add_one_mul]
  · rw [hacc, drop_addInto, drop_pad _ _ hm]
  · rw [add_one_mul]; omega

theorem drain_mid (c : Config) (F : List ℚ → List ℚ) (w : List ℚ)
    (X : List ℚ) (m : Nat) (hov : c.overlap < c.fft_size) :
    ∀ fuel k, k ≤ X.length / c.hop_size →
      X.length / c.hop_size - k ≤ fuel →
      m ≤ primingOut c + k * c.hop_size →
      drain c F w fuel (midState c F w X m k) =
        midState c F w X m (X.length / c.hop_size) := by
  have hpos : 0 < c.hop_size := hop_pos c hov
  have hfft : c.overlap + c.hop_size = c.fft_size := overlap_add_hop c hov
  intro fuel
  induction fuel with
  | zero =>
    intro k hk hfuel hm
    have hkK : k = X.length / c.hop_size := by omega
    rw [hkK]
    rfl
  | succ fuel ih =>
    intro k hk hfuel hm
    have hinp : (midState c F w X m k).input.length =
        c.overlap + X.length - k * c.hop_size := by
      simp [midState, primedS]
    rcases eq_or_lt_of_le hk with hkK | hkK
    · have hKhop : X.length / c.hop_size * c.hop_size ≤ X.length :=
        Nat.div_mul_le_self _ _
      have hnot : ¬ ((k + 1) * c.hop_size ≤ X.length) := by
        intro hcontr
        have : k + 1 ≤ X.length / c.hop_size :=
          (Nat.le_div_iff_mul_le hpos).2 hcontr
        omega
      rw [add_one_mul] at hnot
      have hcond : ¬ (c.fft_size ≤ (midState c F w X m k).input.length) := by
        rw [hinp]
        subst hkK
        omega
      rw [drain_succ, if_neg hcond, hkK]
    · have hk1 : (k + 1) * c.hop_size ≤ X.length :=
        (Nat.le_div_iff_mul_le hpos).1 hkK
      rw [add_one_mul] at hk1
      have hcond : c.fft_size ≤ (midState c F w X m k).input.length := by
        rw [hinp]; omega
      rw [drain_succ, if_pos hcond, stepWindow_mid c F w X m k hm]
      exact ih (k + 1) hkK (by omega) (by rw [add_one_mul]; omega)

theorem chanFeed_mid (c : Config) (F : List ℚ → List ℚ) (w : List ℚ)
    (X x : List ℚ) (m : Nat) (hov : c.overlap < c.fft_size)
    (hm : m ≤ primingOut c + X.length / c.hop_size * c.hop_size) :
    chanFeed c F w (midState c F w X m (X.length / c.hop_size)) x =
      midState c F w (X ++ x) m ((X ++ x).length / c.hop_size) := by
  have hpos : 0 < c.hop_size := hop_pos c hov
  have hKhop : X.length / c.hop_size * c.hop_size ≤ X.length :=
    Nat.div_mul_le_self _ _
  have hSX : primedS c (X ++ x) = primedS c X ++ x := by
    simp [primedS]
  have hpush :
      (midState c F w X m (X.length / c.hop_size)).input ++ x =
        (primedS c (X ++ x)).drop (X.length / c.hop_size * c.hop_size) := by
    simp only [midState, hSX]
    rw [List.drop_append_eq_append_drop,
      Nat.sub_eq_zero_of_le (by rw [primedS_length]; omega), List.drop_zero]
  have hout : accum c F w X (X.length / c.hop_size) =
      accum c F w (X ++ x) (X.length / c.hop_size) :=
    (accum_congr_append c F w X x hov _ hKhop).symm
  have hpushed :
      { midState c F w X m (X.length / c.hop_size) with
          input := (midState c F w X m (X.length / c.hop_size)).input ++ x } =
        midState c F w (X ++ x) m (X.length / c.hop_size) := by
    simp only [midState, ChanState.mk.injEq]
    exact ⟨by simpa [midState] using hpush, by rw [hout], trivial⟩
  unfold chanFeed
  rw [hpushed]
  have hdivle : X.length / c.hop_size ≤ (X ++ x).length / c.hop_size := by
    apply Nat.div_le_div_right
    simp
  have hK'hop :
      (X ++ x).length / c.hop_size * c.hop_size ≤ X.length + x.length := by
    have := Nat.div_mul_le_self (X ++ x).length c.hop_size
    simpa using this
  have hfuel : (X ++ x).length / c.hop_size - X.length / c.hop_size ≤
      (midState c F w X m (X.length / c.hop_size)).input.length + x.length := by
    set K0 := X.length / c.hop_size
    set K' := (X ++ x).length / c.hop_size
    have hsub : (K' - K0) * c.hop_size = K' * c.hop_size - K0 * c.hop_size :=
      Nat.sub_mul _ _ _
    have hD : K' - K0 ≤ (K' - K0) * c.hop_size :=
      Nat.le_mul_of_pos_right _ hpos
    have hinp : (midState c F w X m K0).input.length =
        c.overlap + X.length - K0 * c.hop_size := by
      simp [midState, primedS]
    rw [hinp]
    omega
  exact drain_mid c F w (X ++ x) m hov _ _ hdivle hfuel hm

theorem chanPop_mid (c : Config) (F : List ℚ → List ℚ) (w : List ℚ)
    (X : List ℚ) (m k : Nat) :
    chanPop c (midState c F w X m k) =
      (midState c F w X (m + c.block_size) k,
       ((accum c F w X k).drop m).take c.block_size) := by
  simp [chanPop, midState, Nat.sub_sub]

theorem chanAfter_eq_mid (c : Config) (F : List ℚ → List ℚ) (w : List ℚ)
    (X : List ℚ) :
    chanAfter c F w X = midState c F w X X.length (X.length / c.hop_size) :=
  rfl

/-- Pop safety: after any whole number of blocks, the pop frontier never
overtakes the finalized frontier (this is what the output priming is
for). -/
theorem popped_le_fin (c : Config) (hov : c.overlap < c.fft_size) (n : Nat) :
    n * c.block_size ≤
      primingOut c + n * c.block_size / c.hop_size * c.hop_size := by
  have hpos : 0 < c.hop_size := hop_pos c hov
  have hmod := mul_block_mod_hop_le_primingOut c hpos n
  have hdm := Nat.mod_add_div (n * c.block_size) c.hop_size
  rw [Nat.mul_comm c.hop_size _] at hdm
  omega

/-! One whole `ProcessBlock` call on one channel, in closed form. -/

theorem chanCall_feed (c : Config) (F : List ℚ → List ℚ) (w : List ℚ)
    (X x : List ℚ) (n : Nat) (hov : c.overlap < c.fft_size)
    (hX : X.length = n * c.block_size) :
    chanFeed c F w (chanAfter c F w X) x =
      midState c F w (X ++ x) X.length ((X ++ x).length / c.hop_size) := by
  rw [chanAfter_eq_mid]
  exact chanFeed_mid c F w X x X.length hov
    (by rw [hX]; exact popped_le_fin c hov n)

theorem chanCall_fin (c : Config) (F : List ℚ → List ℚ) (w : List ℚ)
    (X x : List ℚ) (n : Nat) (hov : c.overlap < c.fft_size)
    (hX : X.length = n * c.block_size) (hx : x.length = c.block_size) :
    c.block_size ≤
      (midState c F w (X ++ x) X.length ((X ++ x).length / c.hop_size)).fin := by
  have hXx : (X ++ x).length = (n + 1) * c.block_size := by
    simp [hX, hx, add_one_mul]
  have hsafe := popped_le_fin c hov (n + 1)
  rw [← hXx] at hsafe
  simp only [midState]
  have hXle : X.length + c.block_size = (X ++ x).length := by
    simp [hx]
  omega

theorem chanCall_pop (c : Config) (F : List ℚ → List ℚ) (w : List ℚ)
    (X x : List ℚ) (hx : x.length = c.block_size) :
    chanPop c (midState c F w (X ++ x) X.length ((X ++ x).length / c.hop_size)) =
      (chanAfter c F w (X ++ x),
       ((accum c F w (X ++ x) ((X ++ x).length / c.hop_size)).drop
          X.length).take c.block_size) := by
  rw [chanPop_mid, chanAfter_eq_mid]
  have hXx : X.length + c.block_size = (X ++ x).length := by simp [hx]
  rw [hXx]

theorem chanChunk_length (c : Config) (F : List ℚ → List ℚ) (w : List ℚ)
    (X x : List ℚ) (n : Nat) (hov : c.overlap < c.fft_size)
    (hw : w.length = c.fft_size) (HF : ∀ l, (F l).length = l.length)
    (hX : X.length = n * c.block_size) (hx : x.length = c.block_size) :
    (((accum c F w (X ++ x) ((X ++ x).length / c.hop_size)).drop
        X.length).take c.block_size).length = c.block_size := by
  have hXx : (X ++ x).length = (n + 1) * c.block_size := by
    simp [hX, hx, add_one_mul]
  have hKle : (X ++ x).length / c.hop_size * c.hop_size ≤ (X ++ x).length :=
    Nat.div_mul_le_self _ _
  have hlen := accum_length_ge c F w (X ++ x) hov hw HF
    ((X ++ x).length / c.hop_size) hKle
  have hsafe := popped_le_fin c hov (n + 1)
  rw [← hXx] at hsafe
  have hXle : X.length + c.block_size = (X ++ x).length := by simp [hx]
  simp only [List.length_take, List.length_drop]
  omega

/-! Lifting the single-channel closed form to the multichannel
`ProcessBlock`. -/

theorem chanOf_map_range (f : Nat → List ℚ)
    (n ch : Nat) (hch : ch < n) :
    chanOf ch ((List.range n).map f) = f ch := by
  rw [chanOf, List.getD_eq_getElem _ _ (by simpa using hch)]
  simp

theorem chanOf_length (c : Config) (b : List (List ℚ))
    (hb : blockShapeOk c b) (ch : Nat) (hch : ch < c.channel_count) :
    (chanOf ch b).length = c.block_size := by
  obtain ⟨hlen, hall⟩ := hb
  have hchb : ch < b.length := by omega
  rw [chanOf, List.getD_eq_getElem _ _ hchb]
  exact hall _ (List.getElem_mem hchb)

theorem zipWith_range {γ : Type} (f : ChanState → List ℚ → γ)
    (g : Nat → ChanState) (b : List (List ℚ)) (n : Nat) (hb : b.length = n) :
    List.zipWith f ((List.range n).map g) b =
      (List.range n).map fun ch => f (g ch) (chanOf ch b) := by
  apply List.ext_getElem
  · simp [hb]
  · intro i h1 h2
    have hi : i < n := by simpa using h2
    have hib : i < b.length := by omega
    simp only [List.getElem_zipWith, List.getElem_map, List.getElem_range]
    rw [chanOf, List.getD_eq_getElem _ _ hib]

theorem histChan_nil (ch : Nat) : histChan ch [] = [] := rfl

theorem histChan_cons (ch : Nat) (b : List (List ℚ))
    (Bs : List (List (List ℚ))) :
    histChan ch (b :: Bs) = chanOf ch b ++ histChan ch Bs := by
  simp [histChan]

theorem histChan_length (c : Config) (ch : Nat) (hch : ch < c.channel_count) :
    ∀ (Bs : List (List (List ℚ))), (∀ b ∈ Bs, blockShapeOk c b) →
      (histChan ch Bs).length = Bs.length * c.block_size := by
  intro Bs
  induction Bs with
  | nil => intro _; simp [histChan_nil]
  | cons b Bs ih =>
    intro hBs
    rw [histChan_cons]
    simp only [List.length_append, List.length_cons]
    rw [chanOf_length c b (hBs b (by simp)) ch hch,
      ih (fun b' hb' => hBs b' (by simp [hb']))]
    ring

/-- One `ProcessBlock` call on a filter whose channels are in per-channel
closed form: the call succeeds, pops one block per channel, and advances
every channel's closed form by that channel's slice of the buffer. -/
theorem processBlock_closed (c : Config) (F : List ℚ → List ℚ) (w : List ℚ)
    (hov : c.overlap < c.fft_size) (H : Nat → List ℚ) (n : Nat)
    (hH : ∀ ch < c.channel_count, (H ch).length = n * c.block_size)
    (b : List (List ℚ)) (hb : blockShapeOk c b) :
    ProcessBlock F w
      { initialized := true, cfg := c
        chans := (List.range c.channel_count).map fun ch =>
          chanAfter c F w (H ch) } b =
      ({ initialized := true, cfg := c
         chans := (List.range c.channel_count).map fun ch =>
           chanAfter c F w (H ch ++ chanOf ch b) },
       (List.range c.channel_count).map fun ch =>
         ((accum c F w (H ch ++ chanOf ch b)
             ((H ch ++ chanOf ch b).length / c.hop_size)).drop
           (H ch).length).take c.block_size,
       none) := by
  have hblen : b.length = c.channel_count := hb.1
  have hfed : List.zipWith (chanFeed c F w)
      ((List.range c.channel_count).map fun ch => chanAfter c F w (H ch)) b =
      (List.range c.channel_count).map fun ch =>
        midState c F w (H ch ++ chanOf ch b) (H ch).length
          ((H ch ++ chanOf ch b).length / c.hop_size) := by
    rw [zipWith_range _ _ _ _ hblen]
    apply List.map_congr_left
    intro ch hch
    exact chanCall_feed c F w (H ch) (chanOf ch b) n hov
      (hH ch (List.mem_range.1 hch))
  have hall : ((List.range c.channel_count).map fun ch =>
      midState c F w (H ch ++ chanOf ch b) (H ch).length
        ((H ch ++ chanOf ch b).length / c.hop_size)).all
      (fun s => c.block_size ≤ s.fin) = true := by
    rw [List.all_eq_true]
    intro s hs
    rw [List.mem_map] at hs
    obtain ⟨ch, hch, rfl⟩ := hs
    have hch' := List.mem_range.1 hch
    simpa using chanCall_fin c F w (H ch) (chanOf ch b) n hov
      (hH ch hch') (chanOf_length c b hb ch hch')
  show (if blockShapeOk c b then _ else _) = _
  rw [if_pos hb]
  simp only [hfed, hall, if_pos]
  simp only [List.map_map, Function.comp, Prod.mk.injEq,
    FilterState.mk.injEq, true_and, and_true]
  refine ⟨?_, ?_⟩
  · apply List.map_congr_left
    intro ch hch
    have hch' := List.mem_range.1 hch
    exact congrArg Prod.fst (chanCall_pop c F w (H ch) (chanOf ch b)
      (chanOf_length c b hb ch hch'))
  · apply List.map_congr_left
    intro ch hch
    have hch' := List.mem_range.1 hch
    exact congrArg Prod.snd (chanCall_pop c F w (H ch) (chanOf ch b)
      (chanOf_length c b hb ch hch'))

/-- Closed form of a whole run of `ProcessBlock` calls: every call
succeeds, the final state carries each channel's extended history, and
each channel's concatenated output is the finalized slice of its
overlap-add accumulator. -/
theorem runCalls_closed (c : Config) (F : List ℚ → List ℚ) (w : List ℚ)
    (hov : c.overlap < c.fft_size) (hw : w.length = c.fft_size)
    (HF : ∀ l, (F l).length = l.length) :
    ∀ (Bs : List (List (List ℚ))), (∀ b ∈ Bs, blockShapeOk c b) →
    ∀ (n : Nat) (H : Nat → List ℚ),
      (∀ ch < c.channel_count, (H ch).length = n * c.block_size) →
      ∃ outs,
        runCalls F w
          { initialized := true, cfg := c
            chans := (List.range c.channel_count).map fun ch =>
              chanAfter c F w (H ch) } Bs =
          ({ initialized := true, cfg := c
             chans := (List.range c.channel_count).map fun ch =>
               chanAfter c F w (H ch ++ histChan ch Bs) }, outs) ∧
        outs.length = Bs.length ∧
        (∀ o ∈ outs, o.length = c.channel_count ∧
          ∀ chl ∈ o, chl.length = c.block_size) ∧
        ∀ ch < c.channel_count,
          (outs.map (chanOf ch)).flatten =
            ((accum c F w (H ch ++ histChan ch Bs)
                ((H ch ++ histChan ch Bs).length / c.hop_size)).drop
              (H ch).length).take (Bs.length * c.block_size) := by
  intro Bs
  induction Bs with
  | nil =>
    intro _ n H hH
    refine ⟨[], ?_, rfl, by simp, ?_⟩
    · simp [runCalls, histChan]
    · intro ch hch
      simp [histChan]
  | cons b Bs ih =>
    intro hBs n H hH
    have hb : blockShapeOk c b := hBs b (by simp)
    have hBs' : ∀ b' ∈ Bs, blockShapeOk c b' := fun b' hb' => hBs b' (by simp [hb'])
    have hH1 : ∀ ch < c.channel_count,
        (H ch ++ chanOf ch b).length = (n + 1) * c.block_size := by
      intro ch hch
      simp [hH ch hch, chanOf_length c b hb ch hch, add_one_mul]
    obtain ⟨outs', hrun', hlen', hshape', hflat'⟩ :=
      ih hBs' (n + 1) (fun ch => H ch ++ chanOf ch b) hH1
    refine ⟨((List.range c.channel_count).map fun ch =>
        ((accum c F w (H ch ++ chanOf ch b)
            ((H ch ++ chanOf ch b).length / c.hop_size)).drop
          (H ch).length).take c.block_size) :: outs', ?_, ?_, ?_, ?_⟩
    · show runCalls F w _ (b :: Bs) = _
      simp only [runCalls]
      rw [processBlock_closed c F w hov H n hH b hb]
      simp only []
      rw [hrun']
      have hstate :
          ((List.range c.channel_count).map fun ch =>
            chanAfter c F w ((H ch ++ chanOf ch b) ++ histChan ch Bs)) =
          (List.range c.channel_count).map fun ch =>
            chanAfter c F w (H ch ++ histChan ch (b :: Bs)) := by
        apply List.map_congr_left
        intro ch _
        rw [histChan_cons, List.append_assoc]
      rw [hstate]
    · simp [hlen']
    · intro o ho
      rcases List.mem_cons.1 ho with rfl | ho'
      · constructor
        · simp
        · intro chl hchl
          rw [List.mem_map] at hchl
          obtain ⟨ch, hch, rfl⟩ := hchl
          have hch' := List.mem_range.1 hch
          exact chanChunk_length c F w (H ch) (chanOf ch b) n hov hw HF
            (hH ch hch') (chanOf_length c b hb ch hch')
      · exact hshape' o ho'
    · intro ch hch
      have hx : (chanOf ch b).length = c.block_size :=
        chanOf_length c b hb ch hch
      have hm : (H ch).length = n * c.block_size := hH ch hch
      have hXf : H ch ++ histChan ch (b :: Bs) =
          (H ch ++ chanOf ch b) ++ histChan ch Bs := by
        rw [histChan_cons, List.append_assoc]
      have hX1len : (H ch ++ chanOf ch b).length =
          (H ch).length + c.block_size := by simp [hx]
      simp only [List.map_cons, List.flatten_cons]
      rw [chanOf_map_range _ _ _ hch, hflat' ch hch, hXf, hX1len]
      have hform : ∀ (A : List ℚ) (m : Nat),
          (A.drop m).take c.block_size = (A.take (m + c.block_size)).drop m := by
        intro A m
        rw [List.drop_take, Nat.add_sub_cancel_left]
      have hstab :
          (accum c F w ((H ch ++ chanOf ch b) ++ histChan ch Bs)
              (((H ch ++ chanOf ch b) ++ histChan ch Bs).length /
                c.hop_size)).take ((H ch).length + c.block_size) =
            (accum c F w (H ch ++ chanOf ch b)
              (((H ch).length + c.block_size) / c.hop_size)).take
              ((H ch).length + c.block_size) := by
        apply take_accum_stable c F w _ _ hov hw HF
        · apply Nat.div_le_div_right
          simp only [List.length_append]
          omega
        · have hsafe := popped_le_fin c hov (n + 1)
          have heq : (n + 1) * c.block_size = (H ch).length + c.block_size := by
            rw [hm]; ring
          rw [heq] at hsafe
          exact hsafe
        · rw [hX1len]
          exact Nat.div_mul_le_self _ _
        · have h0 := Nat.div_mul_le_self
            ((H ch ++ chanOf ch b) ++ histChan ch Bs).length c.hop_size
          simp only [List.length_append] at h0 ⊢
          omega
      calc
        ((accum c F w (H ch ++ chanOf ch b)
              (((H ch).length + c.block_size) / c.hop_size)).drop
            (H ch).length).take c.block_size ++
          ((accum c F w ((H ch ++ chanOf ch b) ++ histChan ch Bs)
              (((H ch ++ chanOf ch b) ++ histChan ch Bs).length /
                c.hop_size)).drop
            ((H ch).length + c.block_size)).take (Bs.length * c.block_size)
            = ((accum c F w ((H ch ++ chanOf ch b) ++ histChan ch Bs)
                  (((H ch ++ chanOf ch b) ++ histChan ch Bs).length /
                    c.hop_size)).take
                  ((H ch).length + c.block_size)).drop (H ch).length ++
                ((accum c F w ((H ch ++ chanOf ch b) ++ histChan ch Bs)
                    (((H ch ++ chanOf ch b) ++ histChan ch Bs).length /
                      c.hop_size)).drop
                  ((H ch).length + c.block_size)).take
                  (Bs.length * c.block_size) := by
              rw [hform, hstab]
        _ = ((accum c F w ((H ch ++ chanOf ch b) ++ histChan ch Bs)
                (((H ch ++ chanOf ch b) ++ histChan ch Bs).length /
                  c.hop_size)).drop (H ch).length).take c.block_size ++
              (((accum c F w ((H ch ++ chanOf ch b) ++ histChan ch Bs)
                  (((H ch ++ chanOf ch b) ++ histChan ch Bs).length /
                    c.hop_size)).drop (H ch).length).drop
                c.block_size).take (Bs.length * c.block_size) := by
              rw [← hform, List.drop_drop]
        _ = ((accum c F w ((H ch ++ chanOf ch b) ++ histChan ch Bs)
                (((H ch ++ chanOf ch b) ++ histChan ch Bs).length /
                  c.hop_size)).drop (H ch).length).take
              (c.block_size + Bs.length * c.block_size) :=
              (List.take_add _ _ _).symm
        _ = ((accum c F w ((H ch ++ chanOf ch b) ++ histChan ch Bs)
                (((H ch ++ chanOf ch b) ++ histChan ch Bs).length /
                  c.hop_size)).drop (H ch).length).take
              ((b :: Bs).length * c.block_size) := by
              congr 1
              simp [List.length_cons]
              ring

/-! Value-level analysis of the accumulator when the composite
transform/callback is the identity. -/

theorem getD_accum_low (c : Config) (F : List ℚ → List ℚ) (w X : List ℚ)
    (K t : Nat) (ht : t < primingOut c) :
    (accum c F w X K).getD t 0 = 0 := by
  induction K with
  | zero =>
    simp only [accum, List.getD_eq_getElem?_getD, List.getElem?_replicate]
    rw [if_pos ht]
    rfl
  | succ K ih =>
    have hacc : accum c F w X (K + 1) =
        addInto (accum c F w X K)
          (List.replicate (primingOut c + K * c.hop_size) 0 ++
            synth F w
              (((primedS c X).drop (K * c.hop_size)).take c.fft_size)) :=
      rfl
    rw [hacc, getD_addInto, ih, getD_pad, if_pos (by omega), add_zero]

theorem getD_accum_id (c : Config) (w X : List ℚ) (K r : Nat) :
    (accum c id w X K).getD (primingOut c + r) 0 =
      (primedS c X).getD r 0 * ∑ k ∈ Finset.range K, contrib c w r k := by
  induction K with
  | zero =>
    simp [accum, List.getD_eq_getElem?_getD, List.getElem?_replicate]
  | succ K ih =>
    have hacc : accum c id w X (K + 1) =
        addInto (accum c id w X K)
          (List.replicate (primingOut c + K * c.hop_size) 0 ++
            synth id w
              (((primedS c X).drop (K * c.hop_size)).take c.fft_size)) :=
      rfl
    rw [hacc, getD_addInto, ih, Finset.sum_range_succ, mul_add]
    congr 1
    rw [getD_pad]
    rcases Nat.lt_or_ge r (K * c.hop_size) with hr | hr
    · rw [if_pos (by omega)]
      rw [contrib, if_neg (by omega), mul_zero]
    · rw [if_neg (by omega)]
      have hidx : primingOut c + r - (primingOut c + K * c.hop_size) =
          r - K * c.hop_size := by omega
      rw [hidx, synth, id_eq, getD_zipWith_mul, getD_take, getD_drop]
      rcases Nat.lt_or_ge (r - K * c.hop_size) c.fft_size with hf | hf
      · rw [if_pos hf, contrib, if_pos (by omega),
          Nat.add_sub_cancel' hr]
        ring
      · rw [if_neg (by omega), contrib, if_neg (by omega), mul_zero,
          mul_zero]

theorem sum_contrib_eq_coverSum (c : Config) (w : List ℚ)
    (hov : c.overlap < c.fft_size) (K r : Nat) (hr : r < K * c.hop_size) :
    ∑ k ∈ Finset.range K, contrib c w r k = coverSum c w r := by
  have hpos : 0 < c.hop_size := hop_pos c hov
  unfold coverSum
  refine (Finset.sum_subset ?_ ?_).symm
  · intro k hk
    rw [Finset.mem_range] at hk ⊢
    have : r / c.hop_size < K := (Nat.div_lt_iff_lt_mul hpos).2 hr
    omega
  · intro k _ hk
    rw [Finset.mem_range, Nat.not_lt] at hk
    have : r < k * c.hop_size := by
      have : r / c.hop_size < k := by omega
      exact (Nat.div_lt_iff_lt_mul hpos).1 this
    rw [contrib, if_neg (by omega)]

theorem coverSum_shift (c : Config) (w : List ℚ)
    (hov : c.overlap < c.fft_size) (r : Nat) (hr : c.overlap ≤ r) :
    coverSum c w (r + c.hop_size) = coverSum c w r := by
  have hpos : 0 < c.hop_size := hop_pos c hov
  have hfft : c.overlap + c.hop_size = c.fft_size := overlap_add_hop c hov
  unfold coverSum
  rw [Nat.add_div_right _ hpos, Finset.sum_range_succ']
  have h0 : contrib c w (r + c.hop_size) 0 = 0 := by
    rw [contrib, if_neg (by simp; omega)]
  rw [h0, add_zero]
  apply Finset.sum_congr rfl
  intro k _
  have hidx : r + c.hop_size - (k + 1) * c.hop_size = r - k * c.hop_size := by
    rw [add_one_mul]; omega
  have hcond : ((k + 1) * c.hop_size ≤ r + c.hop_size ∧
      r + c.hop_size < (k + 1) * c.hop_size + c.fft_size) ↔
      (k * c.hop_size ≤ r ∧ r < k * c.hop_size + c.fft_size) := by
    rw [add_one_mul]
    constructor <;> (intro h; exact ⟨by omega, by omega⟩)
  rw [contrib, contrib, hidx, if_congr hcond rfl rfl]

theorem coverSum_of_cola (c : Config) (w : List ℚ)
    (hov : c.overlap < c.fft_size) (hcola : cola c w) :
    ∀ r, c.overlap ≤ r → coverSum c w r = 1 := by
  have hpos : 0 < c.hop_size := hop_pos c hov
  have key : ∀ q j, j < c.hop_size →
      coverSum c w (c.overlap + j + q * c.hop_size) = 1 := by
    intro q
    induction q with
    | zero => intro j hj; simpa using hcola j hj
    | succ q ih =>
      intro j hj
      have hq : c.overlap + j + (q + 1) * c.hop_size =
          (c.overlap + j + q * c.hop_size) + c.hop_size := by
        rw [add_one_mul]; ring
      rw [hq, coverSum_shift c w hov _ (by omega)]
      exact ih j hj
  intro r hr
  have hdecomp : r = c.overlap + (r - c.overlap) % c.hop_size +
      (r - c.overlap) / c.hop_size * c.hop_size := by
    have hdm := Nat.mod_add_div (r - c.overlap) c.hop_size
    rw [Nat.mul_comm c.hop_size _] at hdm
    omega
  have := key ((r - c.overlap) / c.hop_size) ((r - c.overlap) % c.hop_size)
    (Nat.mod_lt _ hpos)
  rwa [← hdecomp] at this

/-- With identity processing and a constant-overlap-add synthesis window,
the finalized region of the accumulator is exactly the input delayed by
`frameLatency` frames. -/
theorem accum_take_delayed (c : Config) (w X : List ℚ)
    (hov : c.overlap < c.fft_size) (hw : w.length = c.fft_size)
    (hcola : cola c w) (M : Nat) (hMX : M ≤ X.length)
    (hMfin : M ≤ primingOut c + X.length / c.hop_size * c.hop_size) :
    (accum c id w X (X.length / c.hop_size)).take M =
      (List.replicate c.frameLatency 0 ++ X).take M := by
  have hK : X.length / c.hop_size * c.hop_size ≤ X.length :=
    Nat.div_mul_le_self _ _
  have hlen := accum_length_ge c id w X hov hw (fun l => rfl)
    (X.length / c.hop_size) hK
  apply List.ext_getElem
  · simp only [List.length_take, List.length_append, List.length_replicate]
    omega
  · intro t h1 h2
    have ht : t < M := by simp at h1; omega
    rw [List.getElem_take, List.getElem_take,
      ← List.getD_eq_getElem _ 0, ← List.getD_eq_getElem _ 0, getD_pad]
    rcases Nat.lt_or_ge t (primingOut c) with hP | hP
    · rw [getD_accum_low c id w X _ t hP,
        if_pos (by unfold Config.frameLatency; omega)]
    · have hr : t = primingOut c + (t - primingOut c) := by omega
      rw [hr, getD_accum_id c w X _ (t - primingOut c)]
      have hrK : t - primingOut c <
          X.length / c.hop_size * c.hop_size := by omega
      rw [sum_contrib_eq_coverSum c w hov _ _ hrK, primedS, getD_pad]
      rcases Nat.lt_or_ge (t - primingOut c) c.overlap with hov' | hov'
      · rw [if_pos hov', zero_mul,
          if_pos (by unfold Config.frameLatency; omega)]
      · rw [if_neg (by omega),
          coverSum_of_cola c w hov hcola _ hov', mul_one,
          if_neg (by unfold Config.frameLatency; omega)]
        congr 1
        unfold Config.frameLatency
        omega

/-! Initialization layer. -/

theorem Init_not_initialized (st : FilterState) (hst : st.initialized = false)
    (cc fft ov bs : Nat) :
    Init st cc fft ov bs =
      if (⟨cc, fft, ov, bs⟩ : Config).valid then
        ({ initialized := true, cfg := ⟨cc, fft, ov, bs⟩
           chans := List.replicate cc (initChan ⟨cc, fft, ov, bs⟩) }, none)
      else (st, some FilterError.InvalidArgument) := by
  unfold Init
  rw [if_neg (by simp [hst])]

theorem Init_fresh (cc fft ov bs : Nat)
    (hv : (⟨cc, fft, ov, bs⟩ : Config).valid) :
    Init freshFilter cc fft ov bs =
      ({ initialized := true, cfg := ⟨cc, fft, ov, bs⟩
         chans := List.replicate cc (initChan ⟨cc, fft, ov, bs⟩) }, none) := by
  rw [Init_not_initialized freshFilter rfl, if_pos hv]

theorem chanAfter_nil (c : Config) (F : List ℚ → List ℚ) (w : List ℚ) :
    chanAfter c F w [] = initChan c := by
  simp [chanAfter, initChan, primedS, accum]

theorem chans_fresh (c : Config) (F : List ℚ → List ℚ) (w : List ℚ) :
    List.replicate c.channel_count (initChan c) =
      (List.range c.channel_count).map fun _ => chanAfter c F w [] := by
  rw [chanAfter_nil, List.map_const', List.length_range]

/-- The round trip in terms of the initialized state: with the identity
composite and a constant-overlap-add synthesis window, every channel's
concatenated output equals that channel's input delayed by
`frameLatency` frames. -/
theorem round_trip_core (c : Config) (w : List ℚ)
    (hv : c.valid) (hw : w.length = c.fft_size) (hcola : cola c w)
    (Bs : List (List (List ℚ))) (hBs : ∀ b ∈ Bs, blockShapeOk c b) :
    ∀ ch < c.channel_count,
      (((runCalls id w
          { initialized := true, cfg := c
            chans := List.replicate c.channel_count (initChan c) } Bs).2).map
         (chanOf ch)).flatten =
        (List.replicate c.frameLatency 0 ++ histChan ch Bs).take
          (Bs.length * c.block_size) := by
  obtain ⟨hcc, hfft, hov, hbs⟩ := hv
  obtain ⟨outs, hrun, hlen, hshape, hflat⟩ :=
    runCalls_closed c id w hov hw (fun l => rfl) Bs hBs 0 (fun _ => [])
      (by intro ch _; simp)
  intro ch hch
  rw [chans_fresh c id w, hrun, hflat ch hch]
  simp only [List.nil_append, List.length_nil, List.drop_zero]
  have hhl : (histChan ch Bs).length = Bs.length * c.block_size :=
    histChan_length c ch hch Bs hBs
  apply accum_take_delayed c w _ hov hw hcola
  · omega
  · rw [hhl]
    exact popped_le_fin c hov Bs.length

/-! Facts about the impulse-response experiment. -/

theorem chanOf_replicate (ch n : Nat) (l : List ℚ) (hch : ch < n) :
    chanOf ch (List.replicate n l) = l := by
  rw [chanOf, List.getD_eq_getElem _ _ (by simpa using hch)]
  simp

theorem flatten_replicate_zero (n m : Nat) :
    (List.replicate n (List.replicate m (0 : ℚ))).flatten =
      List.replicate (n * m) 0 := by
  induction n with
  | zero => simp
  | succ n ih =>
    rw [List.replicate_succ, List.flatten_cons, ih, ← List.replicate_add]
    congr 1
    rw [add_one_mul]
    omega

theorem histChan_zeroblocks (c : Config) (ch : Nat)
    (hch : ch < c.channel_count) (k : Nat) :
    histChan ch (List.replicate k (zeroBuffer c)) =
      List.replicate (k * c.block_size) 0 := by
  unfold histChan zeroBuffer
  rw [List.map_replicate, chanOf_replicate ch c.channel_count _ hch,
    flatten_replicate_zero]

theorem histChan_impulse (c : Config) (n ch : Nat)
    (hch : ch < c.channel_count) (hbs : 1 ≤ c.block_size) :
    histChan ch (impulseBlocks c n) =
      1 :: List.replicate ((n + 1) * c.block_size - 1) (0 : ℚ) := by
  unfold impulseBlocks impulseBuffer
  rw [histChan_cons, chanOf_replicate ch c.channel_count _ hch,
    histChan_zeroblocks c ch hch n, List.cons_append, ← List.replicate_add]
  congr 2
  rw [add_one_mul]
  omega

theorem impulseBlocks_shape (c : Config) (hbs : 1 ≤ c.block_size) (n : Nat) :
    ∀ b ∈ impulseBlocks c n, blockShapeOk c b := by
  intro b hb
  unfold impulseBlocks at hb
  rcases List.mem_cons.1 hb with rfl | hb'
  · refine ⟨by simp [impulseBuffer], ?_⟩
    intro chl hchl
    have := List.eq_of_mem_replicate hchl
    rw [this]
    simp
    omega
  · have := List.eq_of_mem_replicate hb'
    rw [this]
    exact ⟨by simp [zeroBuffer], by
      intro chl hchl
      have := List.eq_of_mem_replicate hchl
      rw [this]
      simp⟩

/-! The claims. -/

/-- C2: `Init` validates its configuration arguments — `channel_count ≥
1`, `0 ≤ overlap < fft_size`, `fft_size ≥ 1`, `block_size ≥ 1` — and
fails with `InvalidArgument` when any constraint is violated; in
particular it fails for `overlap = fft_size`, `overlap > fft_size`,
`fft_size = 0` and `channel_count = 0`, and succeeds for
`overlap = fft_size / 2` with even `fft_size`. -/
theorem C2_init_validation (st : FilterState) (hst : st.initialized = false)
    (cc fft ov bs : Nat) :
    ((Init st cc fft ov bs).2 = none ↔
      1 ≤ cc ∧ 1 ≤ fft ∧ ov < fft ∧ 1 ≤ bs) ∧
    (¬ (1 ≤ cc ∧ 1 ≤ fft ∧ ov < fft ∧ 1 ≤ bs) →
      Init st cc fft ov bs = (st, some FilterError.InvalidArgument)) ∧
    (Init st cc fft fft bs).2 = some FilterError.InvalidArgument ∧
    (∀ ov', fft < ov' →
      (Init st cc fft ov' bs).2 = some FilterError.InvalidArgument) ∧
    (Init st cc 0 ov bs).2 = some FilterError.InvalidArgument ∧
    (Init st 0 fft ov bs).2 = some FilterError.InvalidArgument ∧
    (2 ∣ fft → 1 ≤ cc → 1 ≤ fft → 1 ≤ bs →
      (Init st cc fft (fft / 2) bs).2 = none) := by
  refine ⟨?_, ?_, ?_, ?_, ?_, ?_, ?_⟩
  · rw [Init_not_initialized st hst]
    by_cases hv : (⟨cc, fft, ov, bs⟩ : Config).valid
    · rw [if_pos hv]
      exact iff_of_true rfl hv
    · rw [if_neg hv]
      exact iff_of_false (by simp) hv
  · intro hnv
    rw [Init_not_initialized st hst,
      if_neg (show ¬ (⟨cc, fft, ov, bs⟩ : Config).valid from
        fun hv => hnv hv)]
  · rw [Init_not_initialized st hst,
      if_neg (fun hv => absurd hv.2.2.1 (lt_irrefl fft))]
  · intro ov' hov'
    rw [Init_not_initialized st hst,
      if_neg (fun hv => absurd (show ov' < fft from hv.2.2.1) (by omega))]
  · rw [Init_not_initialized st hst,
      if_neg (fun hv => absurd (show 1 ≤ 0 from hv.2.1) (by omega))]
  · rw [Init_not_initialized st hst,
      if_neg (fun hv => absurd (show 1 ≤ 0 from hv.1) (by omega))]
  · intro _ hcc hfft hbs
    rw [Init_not_initialized st hst,
      if_pos ⟨hcc, hfft, Nat.div_lt_self (by omega) one_lt_two, hbs⟩]

theorem C2_init_validation_witness :
    freshFilter.initialized = false ∧
    (Init freshFilter 1 8 4 4).2 = none ∧
    (Init freshFilter 1 8 8 4).2 = some FilterError.InvalidArgument ∧
    (Init freshFilter 1 8 9 4).2 = some FilterError.InvalidArgument ∧
    (Init freshFilter 1 0 4 4).2 = some FilterError.InvalidArgument ∧
    (Init freshFilter 0 8 4 4).2 = some FilterError.InvalidArgument ∧
    (Init freshFilter 1 8 (8 / 2) 4).2 = none := by
  have h := C2_init_validation freshFilter rfl 1 8 4 4
  exact ⟨rfl, h.1.2 (by decide), h.2.2.1,
    h.2.2.2.1 9 (by decide),
    (C2_init_validation freshFilter rfl 1 0 4 4).2.2.2.2.1,
    (C2_init_validation freshFilter rfl 0 8 4 4).2.2.2.2.2.1,
    h.2.2.2.2.2.2 (by decide) (by decide) (by decide) (by decide)⟩

/-- C3: after a successful `Init`, the public accessors return exactly
the configured values, with `hop_size = fft_size - overlap` and
`window_size = fft_size`; in the model every accessor is a pure function
of the filter state (it reads the stored configuration and modifies
nothing). -/
theorem C3_accessors (cc fft ov bs : Nat)
    (hv : (⟨cc, fft, ov, bs⟩ : Config).valid) :
    (Init freshFilter cc fft ov bs).1.fft_size = fft ∧
    (Init freshFilter cc fft ov bs).1.overlap = ov ∧
    (Init freshFilter cc fft ov bs).1.block_size = bs ∧
    (Init freshFilter cc fft ov bs).1.channel_count = cc ∧
    (Init freshFilter cc fft ov bs).1.hop_size =
      (Init freshFilter cc fft ov bs).1.fft_size -
        (Init freshFilter cc fft ov bs).1.overlap ∧
    (Init freshFilter cc fft ov bs).1.window_size =
      (Init freshFilter cc fft ov bs).1.fft_size := by
  rw [Init_fresh cc fft ov bs hv]
  exact ⟨rfl, rfl, rfl, rfl, rfl, rfl⟩

theorem C3_accessors_witness :
    (Init freshFilter 1 8 4 4).1.fft_size = 8 ∧
    (Init freshFilter 1 8 4 4).1.overlap = 4 ∧
    (Init freshFilter 1 8 4 4).1.block_size = 4 ∧
    (Init freshFilter 1 8 4 4).1.channel_count = 1 ∧
    (Init freshFilter 1 8 4 4).1.hop_size = 4 ∧
    (Init freshFilter 1 8 4 4).1.window_size = 8 := by
  have h := C3_accessors 1 8 4 4 (by decide)
  exact ⟨h.1, h.2.1, h.2.2.1, h.2.2.2.1, by decide, h.2.2.2.2.2⟩

/-- C7: a `ProcessBlock` call whose buffer has the wrong channel count
(or the wrong frame count) signals `ShapeMismatch` and mutates nothing:
both the filter state and the caller's buffer are returned unchanged. -/
theorem C7_shape_mismatch (F : List ℚ → List ℚ) (w : List ℚ)
    (st : FilterState) (b : List (List ℚ))
    (h : b.length ≠ st.cfg.channel_count ∨
      ∃ ch ∈ b, ch.length ≠ st.cfg.block_size) :
    ProcessBlock F w st b = (st, b, some FilterError.ShapeMismatch) := by
  have hns : ¬ blockShapeOk st.cfg b := by
    intro hok
    rcases h with h | ⟨ch, hch, hne⟩
    · exact h hok.1
    · exact hne (hok.2 ch hch)
  unfold ProcessBlock
  rw [if_neg hns]

theorem C7_shape_mismatch_witness :
    ProcessBlock id [] (Init freshFilter 1 8 4 4).1
        [[1, 0, 0, 0], [1, 0, 0, 0]] =
      ((Init freshFilter 1 8 4 4).1, [[1, 0, 0, 0], [1, 0, 0, 0]],
        some FilterError.ShapeMismatch) :=
  C7_shape_mismatch id [] (Init freshFilter 1 8 4 4).1
    [[1, 0, 0, 0], [1, 0, 0, 0]] (Or.inl (by decide))

/-- C8: calling `Init` on an already initialized instance fails with
`AlreadyInitialized` and leaves the instance (configuration and buffers)
unchanged. -/
theorem C8_already_initialized (st : FilterState)
    (h : st.initialized = true) (cc fft ov bs : Nat) :
    Init st cc fft ov bs = (st, some FilterError.AlreadyInitialized) := by
  unfold Init
  rw [if_pos h]

theorem C8_already_initialized_witness :
    Init (Init freshFilter 1 8 4 4).1 2 16 8 4 =
      ((Init freshFilter 1 8 4 4).1, some FilterError.AlreadyInitialized) :=
  C8_already_initialized (Init freshFilter 1 8 4 4).1 (by decide) 2 16 8 4

/-- C9 (counterexample): the claim says `Init` surfaces configuration
errors as an explicit result value rather than through a mutable
out-parameter error code, but the header declares
`void Init(..., std::error_code& err)`: the error is surfaced through the
mutable out-parameter. -/
theorem C9_counterexample :
    initErrorSurfacing ≠ ErrorSurfacing.returnedResult := by
  decide

/-- C9 (amended): configuration errors from `Init` are surfaced
synchronously at the call that caused them, through the caller-supplied
mutable `std::error_code` out-parameter (not a returned result value);
they are never thrown (the model is a total function) and never silently
corrected to defaults (on invalid arguments the instance is left
untouched and not initialized). -/
theorem C9_amended (st : FilterState) (hst : st.initialized = false)
    (cc fft ov bs : Nat)
    (hbad : ¬ (⟨cc, fft, ov, bs⟩ : Config).valid) :
    initErrorSurfacing = ErrorSurfacing.mutableOutParameter ∧
    Init st cc fft ov bs = (st, some FilterError.InvalidArgument) := by
  refine ⟨rfl, ?_⟩
  rw [Init_not_initialized st hst, if_neg hbad]

theorem C9_amended_witness :
    initErrorSurfacing = ErrorSurfacing.mutableOutParameter ∧
    Init freshFilter 0 0 0 0 =
      (freshFilter, some FilterError.InvalidArgument) :=
  C9_amended freshFilter rfl 0 0 0 0 (by decide)

/-- C10: at the public interface the channel count is an 8-bit unsigned
integer: the caller's channel count is reduced modulo `2 ^ 8` at the call
boundary (so `256` arrives as `0` and fails the `channel_count ≥ 1`
validation), a successfully initialized filter reports
`channel_count ≤ 255`, while `fft_size`, `overlap` and `block_size` are
carried as 32-bit unsigned integers (reduced modulo `2 ^ 32`). -/
theorem C10_uint8_channel_count (st : FilterState) (cc fft ov bs : Nat) :
    InitCall st cc fft ov bs =
      Init st (cc % 2 ^ 8) (fft % 2 ^ 32) (ov % 2 ^ 32) (bs % 2 ^ 32) ∧
    ((InitCall st cc fft ov bs).2 = none →
      (InitCall st cc fft ov bs).1.channel_count = cc % 2 ^ 8 ∧
      (InitCall st cc fft ov bs).1.channel_count ≤ 255) ∧
    (st.initialized = false →
      (InitCall st 256 fft ov bs).2 = some FilterError.InvalidArgument) := by
  refine ⟨rfl, ?_, ?_⟩
  · intro hnone
    unfold InitCall Init at hnone ⊢
    by_cases hinit : st.initialized
    · rw [if_pos hinit] at hnone
      simp at hnone
    · rw [if_neg hinit] at hnone ⊢
      by_cases hv : (⟨cc % 2 ^ 8, fft % 2 ^ 32, ov % 2 ^ 32, bs % 2 ^ 32⟩ :
          Config).valid
      · rw [if_pos hv] at hnone ⊢
        refine ⟨rfl, ?_⟩
        have : cc % 2 ^ 8 < 2 ^ 8 := Nat.mod_lt _ (by norm_num)
        simp only [FilterState.channel_count]
        omega
      · rw [if_neg hv] at hnone
        simp at hnone
  · intro hst
    unfold InitCall
    rw [Init_not_initialized st hst,
      if_neg (fun hv => absurd hv.1 (by norm_num))]

theorem C10_uint8_channel_count_witness :
    (InitCall freshFilter 257 8 4 4).2 = none ∧
    (InitCall freshFilter 257 8 4 4).1.channel_count = 1 ∧
    (InitCall freshFilter 257 8 4 4).1.channel_count ≤ 255 ∧
    (InitCall freshFilter 256 8 4 4).2 = some FilterError.InvalidArgument := by
  have h := C10_uint8_channel_count freshFilter 257 8 4 4
  have hnone : (InitCall freshFilter 257 8 4 4).2 = none := by decide
  exact ⟨hnone, by
    have := (h.2.1 hnone).1
    simpa using this, (h.2.1 hnone).2, h.2.2 rfl⟩

/-- C1: overlap-add round trip.  For every valid configuration, if the
composite of forward transform, spectral callback and inverse transform
is the identity (`ProcessTransformedBlock` passes frames through and the
transform engine is a perfect forward/inverse pair) and the synthesis
window satisfies the constant-overlap-add property for the configured
overlap, then the samples produced by repeated `ProcessBlock` calls are
the input samples delayed by exactly `FrameLatency()` frames. -/
theorem C1_overlap_add_round_trip (cc fft ov bs : Nat) (w : List ℚ)
    (hv : (⟨cc, fft, ov, bs⟩ : Config).valid) (hw : w.length = fft)
    (hcola : cola ⟨cc, fft, ov, bs⟩ w) (Bs : List (List (List ℚ)))
    (hBs : ∀ b ∈ Bs, blockShapeOk ⟨cc, fft, ov, bs⟩ b) :
    ∀ ch < cc,
      (((runCalls id w (Init freshFilter cc fft ov bs).1 Bs).2).map
          (chanOf ch)).flatten =
        (List.replicate (Init freshFilter cc fft ov bs).1.FrameLatency 0 ++
          histChan ch Bs).take (Bs.length * bs) := by
  rw [Init_fresh cc fft ov bs hv]
  exact round_trip_core ⟨cc, fft, ov, bs⟩ w hv hw hcola Bs hBs

theorem C1_overlap_add_round_trip_witness :
    (((runCalls id [0, 1/4, 1/2, 3/4, 1, 3/4, 1/2, 1/4]
        (Init freshFilter 1 8 4 4).1
        [[[1, 0, 0, 0]], [[0, 0, 0, 0]], [[0, 0, 0, 0]], [[0, 0, 0, 0]]]).2).map
       (chanOf 0)).flatten =
      [0, 0, 0, 0, 1, 0, 0, 0, 0, 0, 0, 0, 0, 0, 0, 0] ∧
    (Init freshFilter 1 8 4 4).1.FrameLatency = 4 := by
  constructor
  · have h := C1_overlap_add_round_trip 1 8 4 4
      [0, 1/4, 1/2, 3/4, 1, 3/4, 1/2, 1/4] (by decide) (by decide)
      (by
        intro j hj
        simp only [Config.hop_size] at hj
        norm_num at hj
        interval_cases j <;>
          norm_num [coverSum, contrib, Config.hop_size, Finset.sum_range_succ])
      [[[1, 0, 0, 0]], [[0, 0, 0, 0]], [[0, 0, 0, 0]], [[0, 0, 0, 0]]]
      (by decide) 0 (by decide)
    rw [h]
    decide
  · decide

/-- C4: `FrameLatency()` is a pure function of the configuration — it is
unchanged by any `ProcessBlock` call and is computed analytically from
the stored configuration before any data flows — and it equals the
measured delay, in frames, between a unit impulse fed at time `0` and
its first non-zero reconstructed output sample (under identity spectral
processing with a constant-overlap-add window). -/
theorem C4_frame_latency (cc fft ov bs : Nat) (w : List ℚ)
    (hv : (⟨cc, fft, ov, bs⟩ : Config).valid) (hw : w.length = fft)
    (hcola : cola ⟨cc, fft, ov, bs⟩ w) (n : Nat)
    (hn : (Init freshFilter cc fft ov bs).1.FrameLatency < (n + 1) * bs) :
    (∀ (F : List ℚ → List ℚ) (w' : List ℚ) (st : FilterState)
        (b : List (List ℚ)),
      (ProcessBlock F w' st b).1.FrameLatency = st.FrameLatency) ∧
    (∀ st : FilterState, st.FrameLatency = st.cfg.frameLatency) ∧
    (∀ ch < cc,
      (∀ t < (Init freshFilter cc fft ov bs).1.FrameLatency,
        ((((runCalls id w (Init freshFilter cc fft ov bs).1
            (impulseBlocks ⟨cc, fft, ov, bs⟩ n)).2).map
           (chanOf ch)).flatten).getD t 0 = 0) ∧
      ((((runCalls id w (Init freshFilter cc fft ov bs).1
          (impulseBlocks ⟨cc, fft, ov, bs⟩ n)).2).map
         (chanOf ch)).flatten).getD
        (Init freshFilter cc fft ov bs).1.FrameLatency 0 = 1) := by
  refine ⟨?_, fun st => rfl, ?_⟩
  · intro F w' st b
    show (ProcessBlock F w' st b).1.FrameLatency = st.FrameLatency
    unfold ProcessBlock
    dsimp only
    split_ifs <;> rfl
  · have hbs : 1 ≤ bs := hv.2.2.2
    have h := round_trip_core ⟨cc, fft, ov, bs⟩ w hv hw hcola
      (impulseBlocks ⟨cc, fft, ov, bs⟩ n)
      (impulseBlocks_shape ⟨cc, fft, ov, bs⟩ hbs n)
    rw [Init_fresh cc fft ov bs hv] at hn ⊢
    simp only [FilterState.FrameLatency] at hn ⊢
    intro ch hch
    rw [h ch hch, histChan_impulse ⟨cc, fft, ov, bs⟩ n ch hch hbs]
    have hlen : (impulseBlocks ⟨cc, fft, ov, bs⟩ n).length = n + 1 := by
      simp [impulseBlocks]
    rw [hlen]
    have hbsc : (⟨cc, fft, ov, bs⟩ : Config).block_size = bs := rfl
    rw [hbsc]
    constructor
    · intro t ht
      rw [getD_take, if_pos (by omega), getD_pad, if_pos ht]
    · rw [getD_take, if_pos hn, getD_pad,
        if_neg (lt_irrefl _), Nat.sub_self]
      rfl

theorem C4_frame_latency_witness :
    ((((runCalls id [0, 1/4, 1/2, 3/4, 1, 3/4, 1/2, 1/4]
        (Init freshFilter 1 8 4 4).1
        (impulseBlocks ⟨1, 8, 4, 4⟩ 1)).2).map
       (chanOf 0)).flatten).getD
      (Init freshFilter 1 8 4 4).1.FrameLatency 0 = 1 ∧
    ((((runCalls id [0, 1/4, 1/2, 3/4, 1, 3/4, 1/2, 1/4]
        (Init freshFilter 1 8 4 4).1
        (impulseBlocks ⟨1, 8, 4, 4⟩ 1)).2).map
       (chanOf 0)).flatten).getD 0 0 = 0 ∧
    (Init freshFilter 1 8 4 4).1.FrameLatency = 4 := by
  have h := C4_frame_latency 1 8 4 4
    [0, 1/4, 1/2, 3/4, 1, 3/4, 1/2, 1/4] (by decide) (by decide)
    (by
      intro j hj
      simp only [Config.hop_size] at hj
      norm_num at hj
      interval_cases j <;>
        norm_num [coverSum, contrib, Config.hop_size, Finset.sum_range_succ])
    1 (by decide)
  exact ⟨(h.2.2 0 (by decide)).2,
    (h.2.2 0 (by decide)).1 0 (by decide), by decide⟩

/-- C5: every `ProcessBlock` call on a correctly shaped buffer succeeds
and writes exactly `block_size` output frames per channel into the
caller's buffer (the returned buffer replaces the caller's contents in
place), for every call including the first. -/
theorem C5_pops_exactly_block_size (cc fft ov bs : Nat)
    (F : List ℚ → List ℚ) (w : List ℚ)
    (hv : (⟨cc, fft, ov, bs⟩ : Config).valid) (hw : w.length = fft)
    (HF : ∀ l, (F l).length = l.length)
    (Bs : List (List (List ℚ)))
    (hBs : ∀ b ∈ Bs, blockShapeOk ⟨cc, fft, ov, bs⟩ b)
    (b : List (List ℚ)) (hb : blockShapeOk ⟨cc, fft, ov, bs⟩ b) :
    ∃ st' out,
      ProcessBlock F w
          ((runCalls F w (Init freshFilter cc fft ov bs).1 Bs).1) b =
        (st', out, none) ∧
      out.length = cc ∧ ∀ o ∈ out, o.length = bs := by
  have hov : (⟨cc, fft, ov, bs⟩ : Config).overlap <
      (⟨cc, fft, ov, bs⟩ : Config).fft_size := hv.2.2.1
  rw [Init_fresh cc fft ov bs hv, chans_fresh ⟨cc, fft, ov, bs⟩ F w]
  obtain ⟨outs, hrun, _, _, _⟩ :=
    runCalls_closed ⟨cc, fft, ov, bs⟩ F w hov hw HF Bs hBs 0 (fun _ => [])
      (by intro ch _; simp)
  rw [hrun]
  dsimp only
  have hH : ∀ ch < (⟨cc, fft, ov, bs⟩ : Config).channel_count,
      ((fun ch => [] ++ histChan ch Bs) ch).length =
        Bs.length * (⟨cc, fft, ov, bs⟩ : Config).block_size := by
    intro ch hch
    simp only [List.nil_append]
    exact histChan_length ⟨cc, fft, ov, bs⟩ ch hch Bs hBs
  refine ⟨_, _,
    processBlock_closed ⟨cc, fft, ov, bs⟩ F w hov
      (fun ch => [] ++ histChan ch Bs) Bs.length hH b hb, ?_, ?_⟩
  · simp
  · intro o ho
    rw [List.mem_map] at ho
    obtain ⟨ch, hch, rfl⟩ := ho
    have hch' := List.mem_range.1 hch
    exact chanChunk_length ⟨cc, fft, ov, bs⟩ F w _ _ Bs.length hov hw HF
      (hH ch hch') (chanOf_length ⟨cc, fft, ov, bs⟩ b hb ch hch')

theorem C5_pops_exactly_block_size_witness :
    (∃ st' out,
      ProcessBlock id [0, 1/4, 1/2, 3/4, 1, 3/4, 1/2, 1/4]
          ((runCalls id [0, 1/4, 1/2, 3/4, 1, 3/4, 1/2, 1/4]
            (Init freshFilter 1 8 4 4).1 []).1) [[1, 0, 0, 0]] =
        (st', out, none) ∧
      out.length = 1 ∧ ∀ o ∈ out, o.length = 4) :=
  C5_pops_exactly_block_size 1 8 4 4 id
    [0, 1/4, 1/2, 3/4, 1, 3/4, 1/2, 1/4] (by decide) (by decide)
    (fun l => rfl) [] (by decide) [[1, 0, 0, 0]] (by decide)

/-- C6: conservation of sample count — over any sequence of well-shaped
`ProcessBlock` calls, every call produces one output buffer, and on each
channel the total number of output frames popped equals the total number
of input frames pushed (the fixed initial latency only delays samples,
it does not change their count). -/
theorem C6_sample_conservation (cc fft ov bs : Nat)
    (F : List ℚ → List ℚ) (w : List ℚ)
    (hv : (⟨cc, fft, ov, bs⟩ : Config).valid) (hw : w.length = fft)
    (HF : ∀ l, (F l).length = l.length)
    (Bs : List (List (List ℚ)))
    (hBs : ∀ b ∈ Bs, blockShapeOk ⟨cc, fft, ov, bs⟩ b) :
    (runCalls F w (Init freshFilter cc fft ov bs).1 Bs).2.length =
      Bs.length ∧
    ∀ ch < cc,
      ((((runCalls F w (Init freshFilter cc fft ov bs).1 Bs).2).map
          (chanOf ch)).flatten).length = (histChan ch Bs).length := by
  have hov : (⟨cc, fft, ov, bs⟩ : Config).overlap <
      (⟨cc, fft, ov, bs⟩ : Config).fft_size := hv.2.2.1
  rw [Init_fresh cc fft ov bs hv, chans_fresh ⟨cc, fft, ov, bs⟩ F w]
  obtain ⟨outs, hrun, hlen, hshape, hflat⟩ :=
    runCalls_closed ⟨cc, fft, ov, bs⟩ F w hov hw HF Bs hBs 0 (fun _ => [])
      (by intro ch _; simp)
  rw [hrun]
  dsimp only
  refine ⟨hlen, ?_⟩
  intro ch hch
  rw [hflat ch hch]
  have hhl : (histChan ch Bs).length = Bs.length * bs :=
    histChan_length ⟨cc, fft, ov, bs⟩ ch hch Bs hBs
  simp only [List.nil_append, List.length_nil, List.drop_zero]
  have hK : (histChan ch Bs).length / (⟨cc, fft, ov, bs⟩ : Config).hop_size *
      (⟨cc, fft, ov, bs⟩ : Config).hop_size ≤ (histChan ch Bs).length :=
    Nat.div_mul_le_self _ _
  have hacc := accum_length_ge ⟨cc, fft, ov, bs⟩ F w (histChan ch Bs) hov hw
    HF ((histChan ch Bs).length / (⟨cc, fft, ov, bs⟩ : Config).hop_size) hK
  have hsafe : Bs.length * bs ≤ primingOut ⟨cc, fft, ov, bs⟩ +
      Bs.length * bs / (⟨cc, fft, ov, bs⟩ : Config).hop_size *
        (⟨cc, fft, ov, bs⟩ : Config).hop_size :=
    popped_le_fin ⟨cc, fft, ov, bs⟩ hov Bs.length
  rw [← hhl] at hsafe
  simp only [List.length_take]
  omega

theorem C6_sample_conservation_witness :
    (runCalls id [0, 1/4, 1/2, 3/4, 1, 3/4, 1/2, 1/4]
        (Init freshFilter 1 8 4 4).1 [[[1, 0, 0, 0]]]).2.length = 1 ∧
    ∀ ch < 1,
      ((((runCalls id [0, 1/4, 1/2, 3/4, 1, 3/4, 1/2, 1/4]
          (Init freshFilter 1 8 4 4).1 [[[1, 0, 0, 0]]]).2).map
         (chanOf ch)).flatten).length =
        (histChan ch [[[1, 0, 0, 0]]]).length :=
  C6_sample_conservation 1 8 4 4 id
    [0, 1/4, 1/2, 3/4, 1, 3/4, 1/2, 1/4] (by decide) (by decide)
    (fun l => rfl) [[[1, 0, 0, 0]]] (by decide)

end Rtff
